import Mathlib

/-!
Verification of the creational-patterns repository (Go, `src/main.go`).

The file embeds, as Lean definitions, the parts of the program the claims
are about:

* the cloneable file/folder tree (`Node`, `Node.writeEntry`, `Node.clone`,
  `Folder.String`), with the output sink (`io.Writer`) modelled as a
  stateful writer that may reject a write (`Writer`);
* a heap/pointer model of the same tree (`Cell`, `Heap`, `allocNode`) used
  to state the no-sharing properties of `Clone`;
* the abstract factory `AuthFactory` (a Go `panic` is modelled as
  `Except.error`);
* an interleaving model of `getSingleton` / `sync.Once` (mutex plus
  completion flag, sequentially consistent shared memory).
-/

namespace CP

/-- `WriteOpts` from the source: `Level` is the nesting level used for the
indentation shift on output. -/
structure WriteOpts where
  level : Nat
deriving Repr, DecidableEq

/-- The tree of `Node`s: `file` embeds the `File` struct (a name), `folder`
embeds the `Folder` struct (its embedded `File.Name` plus the ordered
`Children` slice).  The Go `Node` interface has exactly these two
implementations. -/
inductive Node where
  | file (name : String)
  | folder (name : String) (children : List Node)

/-- `strings.Repeat("    ", level)`: the indentation prefix written in front
of an entry at the given nesting level — the four-space unit repeated
`level` times (written as the evident recursion; all repeated chunks are
equal, so the order of concatenation is immaterial). -/
def indent : Nat → String
  | 0 => ""
  | level + 1 => "    " ++ indent level

/-- The output sink (`io.Writer`).  `log` is the list of writes the sink has
accepted so far; `accept` decides, from the history and the next chunk,
whether the next write succeeds.  An in-memory `strings.Builder` is the
writer whose `accept` is constantly `true`. -/
structure Writer where
  accept : List String → String → Bool
  log : List String

/-- One call to `fmt.Fprintf` on the sink: on success the chunk is appended
to the log, on failure the sink is unchanged and a non-nil error comes
back. -/
def Writer.write (w : Writer) (s : String) : Writer × Option String :=
  if w.accept w.log s then ({ w with log := w.log ++ [s] }, none)
  else (w, some "write failed")

mutual

/-- `File.WriteEntry` and `Folder.WriteEntry` from the source.  A file
writes `indent(level) ++ name ++ "\n"` and returns the write's error.  A
folder first writes its own line (via the embedded `File.WriteEntry`),
returning early on error, then writes every child at `level+1` in order,
returning the first error met. -/
def Node.writeEntry : Node → Writer → WriteOpts → Writer × Option String
  | .file name, w, opts => w.write (indent opts.level ++ name ++ "\n")
  | .folder name cs, w, opts =>
    match w.write (indent opts.level ++ name ++ "\n") with
    | (w1, some e) => (w1, some e)
    | (w1, none) => writeChildren cs w1 { level := opts.level + 1 }

/-- The `for _, v := range f.Children` loop of `Folder.WriteEntry`: write
each child entry in order, stopping at the first error. -/
def writeChildren : List Node → Writer → WriteOpts → Writer × Option String
  | [], w, _ => (w, none)
  | c :: cs, w, opts =>
    match Node.writeEntry c w opts with
    | (w1, some e) => (w1, some e)
    | (w1, none) => writeChildren cs w1 opts

end

mutual

/-- `File.Clone` and `Folder.Clone`: a file is copied by name, a folder is
rebuilt with the same (embedded) name and the clone of every child, in
order. -/
def Node.clone : Node → Node
  | .file name => .file name
  | .folder name cs => .folder name (cloneChildren cs)

/-- The `for i, v := range f.Children` loop of `Folder.Clone`. -/
def cloneChildren : List Node → List Node
  | [] => []
  | c :: cs => Node.clone c :: cloneChildren cs

end

mutual

/-- The list of lines `WriteEntry` attempts to write for a node at a level,
in order: the node's own line, then, for a folder, the lines of its
children at `level+1`. -/
def entryLines : Node → Nat → List String
  | .file name, level => [indent level ++ name ++ "\n"]
  | .folder name cs, level =>
    (indent level ++ name ++ "\n") :: childLines cs (level + 1)

/-- Lines attempted for a list of children, in order. -/
def childLines : List Node → Nat → List String
  | [], _ => []
  | c :: cs, level => entryLines c level ++ childLines cs level

end

/-- Writing a list of chunks one by one, stopping at the first rejected
write.  `Node.writeEntry` is proved below to be exactly this on
`entryLines`. -/
def seqWrite : Writer → List String → Writer × Option String
  | w, [] => (w, none)
  | w, s :: ss =>
    match w.write s with
    | (w1, some e) => (w1, some e)
    | (w1, none) => seqWrite w1 ss

/-- The `strings.Builder` sink used by `Folder.String`: an in-memory buffer
whose writes cannot fail. -/
def builder : Writer :=
  { accept := fun _ _ => true, log := [] }

/-- `Folder.String` from the source: render the node into a fresh
`strings.Builder` at level 0 — the error returned by `WriteEntry` is
discarded — and return the accumulated string. -/
def folderString (t : Node) : String :=
  String.join (Node.writeEntry t builder { level := 0 }).1.log

/-- The text produced by a successful render at a level (the sink never
fails). -/
def render (t : Node) (level : Nat) : String :=
  String.join (Node.writeEntry t { accept := fun _ _ => true, log := [] }
    { level := level }).1.log

/-- The `Provider` interface's two implementations, `&GoogleAuth{}` and
`&YandexAuth{}`. -/
inductive Provider where
  | google
  | yandex
deriving Repr, DecidableEq

/-- `AuthFactory` from the source: a `switch` on the provider string; the
default branch panics with `"unknown provider %s"` — the panic is modelled
as `Except.error` with the same message. -/
def AuthFactory (provider : String) : Except String Provider :=
  if provider = "google" then .ok .google
  else if provider = "yandex" then .ok .yandex
  else .error ("unknown provider " ++ provider)

/-- A sink that accepts a write only while its log is still empty: the
second write fails.  Used to exercise the failure path. -/
def failSink : Writer :=
  { accept := fun l _ => l.isEmpty, log := [] }

/-- A builder-like sink that already holds the render of another tree. -/
def usedSink : Writer :=
  { accept := fun _ _ => true, log := ["other" ++ "\n"] }

/-!
## Heap model of the node objects

The Go trees are built from pointers (`*File`, `*Folder`, the `Node`
interface values); `Clone`'s no-sharing guarantee is a statement about
object identity.  The model below makes the identities explicit: a `Heap`
is the list of allocated node objects, an address is an index into it, and
allocation appends.
-/

/-- One allocated node object: a `File` struct, or a `Folder` struct whose
`Children` slice holds the addresses of its child objects. -/
inductive Cell where
  | file (name : String)
  | folder (name : String) (children : List Nat)
deriving Repr, DecidableEq

/-- The allocation store: the cell at address `a` is `h[a]?`; allocation
appends at the end. -/
abbrev Heap := List Cell

/-- Tree-shaped (acyclic, owned top-down) heap: every folder points only
at objects allocated before it. -/
def heapWF (h : Heap) : Bool :=
  (List.range h.length).all fun a =>
    match h[a]? with
    | some (.folder _ cs) => cs.all (· < a)
    | _ => true

/-- Read the children at the given addresses with a fixed node reader. -/
def readChildrenWith (f : Nat → Option Node) : List Nat → Option (List Node)
  | [] => some []
  | a :: as =>
    match f a, readChildrenWith f as with
    | some t, some ts => some (t :: ts)
    | _, _ => none

/-- Read the tree of node values rooted at an address, following child
pointers; the fuel bounds the depth (on a `heapWF` heap a finite fuel
always suffices). -/
def readNode (h : Heap) : Nat → Nat → Option Node
  | 0, _ => none
  | fuel + 1, a =>
    match h[a]? with
    | some (.file name) => some (.file name)
    | some (.folder name cs) =>
      match readChildrenWith (readNode h fuel) cs with
      | some ts => some (.folder name ts)
      | none => none
    | none => none

mutual

/-- `File.Clone` / `Folder.Clone` at the allocation level: rebuild the tree
structure `t` reachable from the receiver entirely from fresh cells
appended to the heap, returning the new heap and the clone's root address.
(The model allocates child cells before their parent's cell; Go allocates
the parent struct first, but only the freshness and contents of the new
cells are observable, not the allocation order.) -/
def allocNode : Heap → Node → Heap × Nat
  | h, .file name => (h ++ [.file name], h.length)
  | h, .folder name cs =>
    match allocChildren h cs with
    | (h1, as) => (h1 ++ [.folder name as], h1.length)

/-- The `for i, v := range f.Children` loop of `Folder.Clone`, at the
allocation level: clone each child in order, threading the heap. -/
def allocChildren : Heap → List Node → Heap × List Nat
  | h, [] => (h, [])
  | h, c :: cs =>
    match allocNode h c with
    | (h1, a) =>
      match allocChildren h1 cs with
      | (h2, as) => (h2, a :: as)

end

mutual

/-- Height of a node value (files have height 0). -/
def Node.height : Node → Nat
  | .file _ => 0
  | .folder _ cs => heightList cs + 1

/-- Maximum height among a list of nodes. -/
def heightList : List Node → Nat
  | [] => 0
  | c :: cs => max (Node.height c) (heightList cs)

end

/-- `g` holds the same objects as `h` at every address in `[lo, hi)`. -/
def agreeOn (g h : Heap) (lo hi : Nat) : Prop :=
  ∀ i, lo ≤ i → i < hi → g[i]? = h[i]?

/-- A concrete heap: the file object `file1` at address 0 and a folder
object `root` pointing at it at address 1. -/
def heap0 : Heap := [.file "file1", .folder "root" [0]]

/-- The tree of node values rooted at address 1 of `heap0`. -/
def tree0 : Node := .folder "root" [.file "file1"]

/-!
## Interleaving model of `getSingleton`

`getSingleton` calls `once.Do(f)` with `f` setting the package-level
`singleton` pointer, then returns `singleton`.  `sync.Once.Do` is an
atomic fast-path load of the completion flag followed, when the flag is
unset, by a mutex-protected re-check, the call to `f`, and (after `f`
returns) the store of the flag.  The model below runs `n` threads of that
program over sequentially consistent shared memory, one atomic step at a
time; `sync.Once`'s atomics/mutex provide exactly the happens-before edges
that make this the right abstraction.  The `singleton` pointer is `none`
(nil) until the initializer body runs; the initializer installs the
instance `some 0` and `initCount` counts how many times the body ran. -/
inductive PC where
  /-- about to do the fast-path atomic load of the completion flag -/
  | start
  /-- flag was unset: about to acquire the mutex -/
  | tryLock
  /-- holding the mutex, about to re-check the flag -/
  | locked
  /-- flag still unset under the mutex: about to run the initializer body -/
  | runInit
  /-- initializer body returned: about to store the completion flag -/
  | setDone
  /-- about to release the mutex -/
  | unlock
  /-- `once.Do` returned: about to read and return `singleton` -/
  | readRet
  /-- returned `r`, the value read from `singleton` -/
  | finished (r : Option Nat)
deriving Repr, DecidableEq

/-- Shared state of the `n` threads: the completion flag, the mutex, the
`singleton` pointer, how many times the initializer body ran, and each
thread's control point. -/
structure GState (n : Nat) where
  done : Bool
  lockHeld : Bool
  singleton : Option Nat
  initCount : Nat
  threads : Fin n → PC

/-- All threads about to make their first call of `getSingleton`. -/
def initState (n : Nat) : GState n :=
  { done := false, lockHeld := false, singleton := none, initCount := 0,
    threads := fun _ => .start }

/-- One atomic step of one thread of `getSingleton`. -/
inductive Step {n : Nat} : GState n → GState n → Prop where
  /-- fast path: the flag is already set, skip straight to the return -/
  | fastDone (s : GState n) (i : Fin n) :
      s.threads i = .start → s.done = true →
      Step s { s with threads := Function.update s.threads i .readRet }
  /-- fast path misses: the flag is unset, go lock -/
  | fastMiss (s : GState n) (i : Fin n) :
      s.threads i = .start → s.done = false →
      Step s { s with threads := Function.update s.threads i .tryLock }
  /-- acquire the mutex (blocks while another thread holds it) -/
  | acquire (s : GState n) (i : Fin n) :
      s.threads i = .tryLock → s.lockHeld = false →
      Step s { s with lockHeld := true,
                      threads := Function.update s.threads i .locked }
  /-- under the mutex the flag is set: someone else initialized; leave -/
  | checkDone (s : GState n) (i : Fin n) :
      s.threads i = .locked → s.done = true →
      Step s { s with threads := Function.update s.threads i .unlock }
  /-- under the mutex the flag is unset: this thread initializes -/
  | checkNotDone (s : GState n) (i : Fin n) :
      s.threads i = .locked → s.done = false →
      Step s { s with threads := Function.update s.threads i .runInit }
  /-- the initializer body: `singleton = &singleInstance{}` -/
  | doInit (s : GState n) (i : Fin n) :
      s.threads i = .runInit →
      Step s { s with singleton := some 0, initCount := s.initCount + 1,
                      threads := Function.update s.threads i .setDone }
  /-- after the body returns, store the completion flag -/
  | doSetDone (s : GState n) (i : Fin n) :
      s.threads i = .setDone →
      Step s { s with done := true,
                      threads := Function.update s.threads i .unlock }
  /-- release the mutex -/
  | release (s : GState n) (i : Fin n) :
      s.threads i = .unlock →
      Step s { s with lockHeld := false,
                      threads := Function.update s.threads i .readRet }
  /-- `return singleton`: read the pointer and finish -/
  | ret (s : GState n) (i : Fin n) :
      s.threads i = .readRet →
      Step s { s with threads :=
        Function.update s.threads i (.finished s.singleton) }

/-- States reachable from the initial state by any interleaving. -/
inductive Reachable (n : Nat) : GState n → Prop where
  | init : Reachable n (initState n)
  | step {s s' : GState n} : Reachable n s → Step s s' → Reachable n s'

/-- Control points at which a thread holds the mutex. -/
def inCS : PC → Prop
  | .locked => True
  | .runInit => True
  | .setDone => True
  | .unlock => True
  | _ => False

/-- The inductive invariant of the `getSingleton` model. -/
structure Inv {n : Nat} (s : GState n) : Prop where
  lock_cs : s.lockHeld = false → ∀ i, ¬ inCS (s.threads i)
  cs_unique : ∀ i j, inCS (s.threads i) → inCS (s.threads j) → i = j
  done_sing : s.done = true → s.singleton = some 0 ∧ s.initCount = 1
  count_le : s.initCount ≤ 1
  init_pre : ∀ i, s.threads i = .runInit →
    s.done = false ∧ s.initCount = 0
  setdone_post : ∀ i, s.threads i = .setDone →
    s.singleton = some 0 ∧ s.initCount = 1
  unlock_done : ∀ i, s.threads i = .unlock → s.done = true
  readret_done : ∀ i, s.threads i = .readRet → s.done = true
  finished_val : ∀ i r, s.threads i = .finished r →
    r = some 0 ∧ s.done = true
  nodone_count : s.done = false →
    s.initCount = 0 ∨ ∃ j, s.threads j = .setDone

/-- The state in which two first-time callers have both returned. -/
def sFin : GState 2 :=
  { done := true, lockHeld := false, singleton := some 0, initCount := 1,
    threads := fun _ => .finished (some 0) }

theorem write_accept (w : Writer) (s : String) :
    ((w.write s).1).accept = w.accept := by
  unfold Writer.write
  split <;> rfl

theorem seqWrite_append (w : Writer) (xs ys : List String) :
    seqWrite w (xs ++ ys) =
      match seqWrite w xs with
      | (w1, some e) => (w1, some e)
      | (w1, none) => seqWrite w1 ys := by
  induction xs generalizing w with
  | nil => simp [seqWrite]
  | cons s ss ih =>
    simp only [List.cons_append, seqWrite]
    cases hw : w.write s with
    | mk w1 e =>
      cases e with
      | none => simpa using ih w1
      | some er => simp

mutual

theorem writeEntry_eq_seq : ∀ (t : Node) (w : Writer) (opts : WriteOpts),
    Node.writeEntry t w opts = seqWrite w (entryLines t opts.level)
  | .file name, w, opts => by
    simp only [Node.writeEntry, entryLines, seqWrite]
    cases hw : w.write (indent opts.level ++ name ++ "\n") with
    | mk w1 e => cases e <;> simp [seqWrite]
  | .folder name cs, w, opts => by
    simp only [Node.writeEntry, entryLines, seqWrite]
    cases hw : w.write (indent opts.level ++ name ++ "\n") with
    | mk w1 e =>
      cases e with
      | none => simpa using writeChildren_eq_seq cs w1 { level := opts.level + 1 }
      | some er => simp

theorem writeChildren_eq_seq : ∀ (cs : List Node) (w : Writer) (opts : WriteOpts),
    writeChildren cs w opts = seqWrite w (childLines cs opts.level)
  | [], w, opts => rfl
  | c :: cs, w, opts => by
    simp only [writeChildren, childLines, seqWrite_append]
    rw [writeEntry_eq_seq c w opts]
    cases hw : seqWrite w (entryLines c opts.level) with
    | mk w1 e =>
      cases e with
      | none => simpa using writeChildren_eq_seq cs w1 opts
      | some er => simp

end

theorem write_ok {w w' : Writer} {s : String} (h : w.write s = (w', none)) :
    w' = { w with log := w.log ++ [s] } ∧ w.accept w.log s = true := by
  unfold Writer.write at h
  split at h
  · cases h
    exact ⟨rfl, by assumption⟩
  · simp at h

theorem write_err {w w' : Writer} {s e : String} (h : w.write s = (w', some e)) :
    w' = w ∧ w.accept w.log s = false := by
  unfold Writer.write at h
  split at h
  · simp at h
  · cases h
    rename_i hacc
    exact ⟨rfl, by simpa using hacc⟩

theorem seqWrite_ok (xs : List String) (w w1 : Writer)
    (h : seqWrite w xs = (w1, none)) :
    w1.log = w.log ++ xs ∧ w1.accept = w.accept := by
  induction xs generalizing w with
  | nil =>
    rw [seqWrite] at h
    cases h
    simp
  | cons s ss ih =>
    rw [seqWrite] at h
    cases hw : w.write s with
    | mk w' e =>
      rw [hw] at h
      cases e with
      | none =>
        rcases write_ok hw with ⟨hw', _⟩
        subst hw'
        rcases ih _ h with ⟨h1, h2⟩
        refine ⟨?_, by simpa using h2⟩
        rw [h1]
        simp
      | some e' => simp at h

theorem seqWrite_err (xs : List String) (w w1 : Writer) (e : String)
    (h : seqWrite w xs = (w1, some e)) :
    ∃ pre fl rest, xs = pre ++ fl :: rest ∧ w1.log = w.log ++ pre ∧
      w.accept (w.log ++ pre) fl = false := by
  induction xs generalizing w with
  | nil =>
    rw [seqWrite] at h
    cases h
  | cons s ss ih =>
    rw [seqWrite] at h
    cases hw : w.write s with
    | mk w' e' =>
      rw [hw] at h
      cases e' with
      | none =>
        rcases write_ok hw with ⟨hw', _⟩
        subst hw'
        rcases ih _ h with ⟨pre, fl, rest, h1, h2, h3⟩
        refine ⟨s :: pre, fl, rest, by simp [h1], by simpa using h2, ?_⟩
        simpa using h3
      | some e'' =>
        simp only at h
        cases h
        rcases write_err hw with ⟨hw', hacc⟩
        subst hw'
        exact ⟨[], s, ss, rfl, by simp, by simpa using hacc⟩

theorem seqWrite_all (xs : List String) (w : Writer)
    (hacc : ∀ l s, w.accept l s = true) :
    seqWrite w xs = ({ w with log := w.log ++ xs }, none) := by
  induction xs generalizing w with
  | nil => simp [seqWrite]
  | cons s ss ih =>
    rw [seqWrite]
    have hw : w.write s = ({ w with log := w.log ++ [s] }, none) := by
      unfold Writer.write
      rw [if_pos (hacc w.log s)]
    rw [hw]
    have hrec := ih { w with log := w.log ++ [s] } (fun l s => hacc l s)
    simp only at hrec ⊢
    rw [hrec]
    simp

mutual

theorem clone_self : ∀ t : Node, Node.clone t = t
  | .file name => rfl
  | .folder name cs => by
    simp only [Node.clone]
    rw [cloneChildren_self cs]

theorem cloneChildren_self : ∀ cs : List Node, cloneChildren cs = cs
  | [] => rfl
  | c :: cs => by
    simp only [cloneChildren]
    rw [clone_self c, cloneChildren_self cs]

end

theorem indent_chars (level : Nat) :
    indent level = String.mk (List.replicate (4 * level) ' ') := by
  induction level with
  | zero => rfl
  | succ l ih =>
    have h4 : 4 * (l + 1) = 4 + 4 * l := by ring
    rw [indent, ih, h4, List.replicate_add]
    have : "    " = String.mk (List.replicate 4 ' ') := by decide
    rw [this]
    rfl

theorem childLines_join (cs : List Node) (level : Nat) :
    childLines cs level = (cs.map (fun c => entryLines c level)).flatten := by
  induction cs with
  | nil => rfl
  | cons c cs ih => simp [childLines, ih]

theorem join_cons (s : String) (ss : List String) :
    String.join (s :: ss) = s ++ String.join ss := by
  apply String.ext
  simp

theorem join_append (xs ys : List String) :
    String.join (xs ++ ys) = String.join xs ++ String.join ys := by
  apply String.ext
  simp

theorem join_flatten (L : List (List String)) :
    String.join L.flatten = String.join (L.map String.join) := by
  induction L with
  | nil => rfl
  | cons xs L ih =>
    rw [List.flatten_cons, join_append, List.map_cons, join_cons, ih]

theorem render_join (t : Node) (level : Nat) :
    render t level = String.join (entryLines t level) := by
  unfold render
  rw [writeEntry_eq_seq, seqWrite_all _ _ (fun _ _ => rfl)]
  simp

theorem render_file (name : String) (level : Nat) :
    render (.file name) level = indent level ++ name ++ "\n" := by
  rw [render_join]
  simp only [entryLines]
  rw [join_cons]
  apply String.ext
  simp

mutual

theorem entryLines_newline : ∀ (t : Node) (level : Nat),
    ∀ l ∈ entryLines t level, ∃ s, l = s ++ "\n"
  | .file name, level => by
    intro l hl
    simp only [entryLines, List.mem_singleton] at hl
    exact ⟨indent level ++ name, hl⟩
  | .folder name cs, level => by
    intro l hl
    simp only [entryLines, List.mem_cons] at hl
    rcases hl with h | h
    · exact ⟨indent level ++ name, h⟩
    · exact childLines_newline cs (level + 1) l h

theorem childLines_newline : ∀ (cs : List Node) (level : Nat),
    ∀ l ∈ childLines cs level, ∃ s, l = s ++ "\n"
  | [], _ => by
    intro l hl
    simp [childLines] at hl
  | c :: cs, level => by
    intro l hl
    simp only [childLines, List.mem_append] at hl
    rcases hl with h | h
    · exact entryLines_newline c level l h
    · exact childLines_newline cs level l h

end

/-- C1: rendering the clone equals rendering the original — `Clone(T)`'s
`WriteEntry` produces, at every level and on every sink, exactly the output
of `T`'s `WriteEntry`. -/
theorem clone_writeEntry_eq (t : Node) (w : Writer) (opts : WriteOpts) :
    Node.writeEntry (Node.clone t) w opts = Node.writeEntry t w opts := by
  rw [clone_self]

/-- C4: a folder renders its own line first, then each child's render at
`level+1` in original child order, and the indentation prefix at nesting
level `d` is exactly `4*d` spaces. -/
theorem folder_render_structure (name : String) (cs : List Node) (level : Nat) :
    render (.folder name cs) level =
      indent level ++ name ++ "\n" ++
        String.join (cs.map (fun c => render c (level + 1))) ∧
    indent level = String.mk (List.replicate (4 * level) ' ') := by
  refine ⟨?_, indent_chars level⟩
  rw [render_join]
  simp only [entryLines]
  rw [join_cons, childLines_join, join_flatten, List.map_map]
  have hmap : List.map (String.join ∘ fun c => entryLines c (level + 1)) cs =
      List.map (fun c => render c (level + 1)) cs :=
    List.map_congr_left (fun c _ => (render_join c (level + 1)).symm)
  rw [hmap]

/-- C5: if a write fails during `WriteEntry`, the traversal stops at the
failing write — exactly the lines before it were written, nothing after —
and the error is returned; a `nil`-error return means the full line list
was written. -/
theorem writeEntry_error_abort (t : Node) (w : Writer) (opts : WriteOpts) :
    (∀ w1, Node.writeEntry t w opts = (w1, none) →
      w1.log = w.log ++ entryLines t opts.level) ∧
    (∀ w1 e, Node.writeEntry t w opts = (w1, some e) →
      ∃ pre fl rest, entryLines t opts.level = pre ++ fl :: rest ∧
        w1.log = w.log ++ pre ∧ w.accept (w.log ++ pre) fl = false) := by
  constructor
  · intro w1 h
    rw [writeEntry_eq_seq] at h
    exact (seqWrite_ok _ _ _ h).1
  · intro w1 e h
    rw [writeEntry_eq_seq] at h
    exact seqWrite_err _ _ _ _ h

theorem writeEntry_error_abort_witness :
    Node.writeEntry (.folder "root" [.file "file1"]) failSink { level := 0 } =
      ({ failSink with log := [indent 0 ++ "root" ++ "\n"] }, some "write failed") ∧
    ∃ pre fl rest,
      entryLines (.folder "root" [.file "file1"]) 0 = pre ++ fl :: rest ∧
      ({ failSink with log := [indent 0 ++ "root" ++ "\n"] } : Writer).log =
        failSink.log ++ pre ∧
      failSink.accept (failSink.log ++ pre) fl = false :=
  ⟨rfl,
   (writeEntry_error_abort (.folder "root" [.file "file1"]) failSink
      { level := 0 }).2 _ "write failed" rfl⟩

/-- C6 counterexample: the text produced for the leaf `file1` at level 0 is
not the string `"file1"` (a newline is appended). -/
theorem render_file1_ne : render (.file "file1") 0 ≠ "file1" := by
  rw [render_file]
  decide

/-- C6 (amended): rendering the leaf `file1` at level 0 produces exactly
`"file1\n"` — the name with no leading indentation and a trailing
newline. -/
theorem render_file1_eq : render (.file "file1") 0 = "file1" ++ "\n" := by
  rw [render_file]
  decide

/-- C7: `AuthFactory` returns the Google/Yandex provider for the two known
strings and aborts with an unknown-provider error on every other string,
never silently defaulting. -/
theorem authFactory_spec :
    AuthFactory "google" = .ok .google ∧ AuthFactory "yandex" = .ok .yandex ∧
    ∀ p : String, p ≠ "google" → p ≠ "yandex" →
      AuthFactory p = .error ("unknown provider " ++ p) := by
  refine ⟨by simp [AuthFactory], by simp [AuthFactory], ?_⟩
  intro p h1 h2
  simp [AuthFactory, h1, h2]

theorem authFactory_spec_witness :
    ("vk" : String) ≠ "google" ∧ ("vk" : String) ≠ "yandex" ∧
    AuthFactory "vk" = .error ("unknown provider " ++ "vk") :=
  ⟨by decide, by decide, authFactory_spec.2.2 "vk" (by decide) (by decide)⟩

/-- C8: cloning a folder with an empty child sequence succeeds and returns
a folder with the same name and no children. -/
theorem clone_empty_folder (name : String) :
    Node.clone (.folder name []) = .folder name [] := rfl

/-- C9: rendering is a pure function of the tree's shape and the level: on
any sink that accepts all writes, `WriteEntry` appends exactly
`entryLines t level` — independent of the sink's prior contents or any
other state — and returns no error. -/
theorem writeEntry_pure (t : Node) (level : Nat) (w : Writer)
    (hacc : ∀ l s, w.accept l s = true) :
    Node.writeEntry t w { level := level } =
      ({ w with log := w.log ++ entryLines t level }, none) := by
  rw [writeEntry_eq_seq]
  exact seqWrite_all _ _ hacc

theorem writeEntry_pure_witness :
    (∀ l s, usedSink.accept l s = true) ∧
    Node.writeEntry (.file "file1") usedSink { level := 0 } =
      ({ usedSink with log := usedSink.log ++ entryLines (.file "file1") 0 },
        none) :=
  ⟨fun _ _ => rfl, writeEntry_pure (.file "file1") 0 usedSink (fun _ _ => rfl)⟩

/-- C10: `Folder.String` is the full render at level 0, every written line
(the last included) is newline-terminated, and the in-memory builder sink
never fails, so the discarded error is never observable. -/
theorem folderString_spec (name : String) (cs : List Node) :
    folderString (.folder name cs) = render (.folder name cs) 0 ∧
    (Node.writeEntry (.folder name cs) builder { level := 0 }).2 = none ∧
    (∀ l ∈ entryLines (.folder name cs) 0, ∃ s, l = s ++ "\n") ∧
    folderString (.folder name cs) =
      String.join (entryLines (.folder name cs) 0) := by
  have hb : ∀ l s, builder.accept l s = true := fun _ _ => rfl
  have hw := writeEntry_pure (.folder name cs) 0 builder hb
  refine ⟨?_, ?_, entryLines_newline _ 0, ?_⟩
  · unfold folderString render
    rw [hw, writeEntry_eq_seq, seqWrite_all _ _ (fun _ _ => rfl)]
    simp [builder]
  · rw [hw]
  · unfold folderString
    rw [hw]
    simp [builder]

theorem folderString_spec_witness :
    folderString (.folder "root" [.file "file1"]) =
      render (.folder "root" [.file "file1"]) 0 ∧
    (indent 0 ++ "root" ++ "\n") ∈ entryLines (.folder "root" [.file "file1"]) 0 ∧
    ∃ s, (indent 0 ++ "root" ++ "\n") = s ++ "\n" :=
  ⟨(folderString_spec "root" [.file "file1"]).1,
   by simp [entryLines],
   (folderString_spec "root" [.file "file1"]).2.2.1 _ (by simp [entryLines])⟩

theorem heapWF_spec {h : Heap} (hwf : heapWF h = true) {a : Nat}
    {name : String} {cs : List Nat} (ha : h[a]? = some (.folder name cs)) :
    ∀ b ∈ cs, b < a := by
  intro b hb
  have halen : a < h.length := by
    rcases List.getElem?_eq_some.mp ha with ⟨hlt, _⟩
    exact hlt
  unfold heapWF at hwf
  have hpa := (List.all_eq_true.mp hwf) a (List.mem_range.mpr halen)
  simp only at hpa
  rw [ha] at hpa
  simp only at hpa
  exact of_decide_eq_true ((List.all_eq_true.mp hpa) b hb)

theorem allocNode_folder (h : Heap) (name : String) (cs : List Node) :
    allocNode h (.folder name cs) =
      ((allocChildren h cs).1 ++ [.folder name (allocChildren h cs).2],
        (allocChildren h cs).1.length) := by
  simp only [allocNode]

theorem allocChildren_cons (h : Heap) (c : Node) (cs : List Node) :
    allocChildren h (c :: cs) =
      ((allocChildren (allocNode h c).1 cs).1,
        (allocNode h c).2 :: (allocChildren (allocNode h c).1 cs).2) := by
  simp only [allocChildren]

mutual

theorem allocNode_append : ∀ (h : Heap) (t : Node),
    ∃ d, (allocNode h t).1 = h ++ d
  | h, .file name => ⟨[.file name], rfl⟩
  | h, .folder name cs => by
    rcases allocChildren_append h cs with ⟨d, hd⟩
    rw [allocNode_folder]
    exact ⟨d ++ [.folder name (allocChildren h cs).2], by simp [hd]⟩

theorem allocChildren_append : ∀ (h : Heap) (cs : List Node),
    ∃ d, (allocChildren h cs).1 = h ++ d
  | h, [] => ⟨[], by simp [allocChildren]⟩
  | h, c :: cs => by
    rcases allocNode_append h c with ⟨d1, hd1⟩
    rcases allocChildren_append (allocNode h c).1 cs with ⟨d2, hd2⟩
    rw [allocChildren_cons]
    exact ⟨d1 ++ d2, by rw [hd2, hd1, List.append_assoc]⟩

end

theorem allocNode_fresh (h : Heap) (t : Node) :
    h.length ≤ (allocNode h t).2 := by
  cases t with
  | file name => simp [allocNode]
  | folder name cs =>
    rw [allocNode_folder]
    rcases allocChildren_append h cs with ⟨d, hd⟩
    simp [hd]

theorem readNode_none {h : Heap} {a : Nat} {fuel : Nat} (hc : h[a]? = none) :
    readNode h (fuel + 1) a = none := by
  simp only [readNode]
  rw [hc]

theorem readNode_file {h : Heap} {a : Nat} {fuel : Nat} {name : String}
    (hc : h[a]? = some (.file name)) :
    readNode h (fuel + 1) a = some (.file name) := by
  simp only [readNode]
  rw [hc]

theorem readNode_folder {h : Heap} {a : Nat} {fuel : Nat} {name : String}
    {cs : List Nat} (hc : h[a]? = some (.folder name cs)) :
    readNode h (fuel + 1) a =
      match readChildrenWith (readNode h fuel) cs with
      | some ts => some (.folder name ts)
      | none => none := by
  simp only [readNode]
  rw [hc]

theorem readChildrenWith_congr {f g : Nat → Option Node} :
    ∀ {as : List Nat}, (∀ a ∈ as, f a = g a) →
      readChildrenWith f as = readChildrenWith g as
  | [], _ => rfl
  | a :: as, hfa => by
    simp only [readChildrenWith]
    rw [hfa a (by simp),
      readChildrenWith_congr (fun b hb => hfa b (by simp [hb]))]

theorem readNode_congr : ∀ (fuel : Nat) (h g : Heap) (n : Nat),
    heapWF h = true → (∀ i, i < n → g[i]? = h[i]?) →
    ∀ a, a < n → readNode g fuel a = readNode h fuel a := by
  intro fuel
  induction fuel with
  | zero =>
    intro h g n _ _ a _
    rfl
  | succ fuel ih =>
    intro h g n hwf hag a han
    have hga : g[a]? = h[a]? := hag a han
    cases hc : h[a]? with
    | none => rw [readNode_none (hga.trans hc), readNode_none hc]
    | some cell =>
      cases cell with
      | file name => rw [readNode_file (hga.trans hc), readNode_file hc]
      | folder name cs =>
        rw [readNode_folder (hga.trans hc), readNode_folder hc]
        rw [readChildrenWith_congr (fun b hb => ih h g n hwf hag b
          (lt_trans (heapWF_spec hwf hc b hb) han))]

theorem readChildrenWith_mono {f g : Nat → Option Node}
    (hfg : ∀ a t, f a = some t → g a = some t) :
    ∀ (as : List Nat) (ts : List Node),
      readChildrenWith f as = some ts → readChildrenWith g as = some ts
  | [], ts, hr => hr
  | a :: as, ts, hr => by
    simp only [readChildrenWith] at hr ⊢
    cases hfa : f a with
    | none => rw [hfa] at hr; cases hr
    | some t =>
      rw [hfa] at hr
      cases hras : readChildrenWith f as with
      | none => rw [hras] at hr; cases hr
      | some ts' =>
        rw [hras] at hr
        rw [hfg a t hfa, readChildrenWith_mono hfg as ts' hras]
        exact hr

theorem readNode_mono : ∀ (fuel fuel' : Nat) (h : Heap) (a : Nat) (t : Node),
    fuel ≤ fuel' → readNode h fuel a = some t → readNode h fuel' a = some t := by
  intro fuel
  induction fuel with
  | zero =>
    intro fuel' h a t _ hr
    simp [readNode] at hr
  | succ fuel ih =>
    intro fuel' h a t hle hr
    rcases Nat.exists_eq_add_of_le hle with ⟨k, hk⟩
    have hk' : fuel' = (fuel + k) + 1 := by omega
    subst hk'
    simp only [readNode] at hr ⊢
    cases hc : h[a]? with
    | none => rw [hc] at hr; cases hr
    | some cell =>
      rw [hc] at hr
      cases cell with
      | file name => simpa using hr
      | folder name cs =>
        simp only at hr ⊢
        cases hrc : readChildrenWith (readNode h fuel) cs with
        | none => rw [hrc] at hr; cases hr
        | some ts =>
          rw [hrc] at hr
          rw [readChildrenWith_mono
            (fun b t' hb => ih (fuel + k) h b t' (Nat.le_add_right fuel k) hb)
            cs ts hrc]
          exact hr

mutual

theorem allocNode_read : ∀ (h : Heap) (t : Node) (g : Heap),
    agreeOn g (allocNode h t).1 h.length (allocNode h t).1.length →
    readNode g (Node.height t + 1) (allocNode h t).2 = some t
  | h, .file name, g => by
    intro hag
    have heq : allocNode h (.file name) = (h ++ [.file name], h.length) := rfl
    rw [heq] at hag ⊢
    have hroot : g[h.length]? = some (Cell.file name) := by
      rw [hag h.length (le_refl _) (by simp), List.getElem?_concat_length]
    show readNode g (0 + 1) h.length = some (Node.file name)
    exact readNode_file hroot
  | h, .folder name cs, g => by
    intro hag
    rw [allocNode_folder] at hag ⊢
    rcases allocChildren_append h cs with ⟨d, hd⟩
    have hlen : h.length ≤ (allocChildren h cs).1.length := by
      rw [hd]
      simp
    have hroot : g[(allocChildren h cs).1.length]? =
        some (Cell.folder name (allocChildren h cs).2) := by
      rw [hag (allocChildren h cs).1.length hlen (by simp),
        List.getElem?_concat_length]
    have hags : agreeOn g (allocChildren h cs).1 h.length
        (allocChildren h cs).1.length := by
      intro i hi1 hi2
      rw [hag i hi1 (by simp only [List.length_append, List.length_cons,
          List.length_nil]; omega),
        List.getElem?_append_left hi2]
    have hchild := allocChildren_read h cs g hags
    show readNode g ((heightList cs + 1) + 1) (allocChildren h cs).1.length =
      some (Node.folder name cs)
    rw [readNode_folder hroot, hchild]

theorem allocChildren_read : ∀ (h : Heap) (cs : List Node) (g : Heap),
    agreeOn g (allocChildren h cs).1 h.length (allocChildren h cs).1.length →
    readChildrenWith (readNode g (heightList cs + 1)) (allocChildren h cs).2 =
      some cs
  | h, [], g => by
    intro _
    rfl
  | h, c :: cs, g => by
    intro hag
    rw [allocChildren_cons] at hag ⊢
    rcases allocNode_append h c with ⟨d1, hd1⟩
    rcases allocChildren_append (allocNode h c).1 cs with ⟨d2, hd2⟩
    have hl1 : h.length ≤ (allocNode h c).1.length := by
      rw [hd1]
      simp
    have hl2 : (allocNode h c).1.length ≤
        (allocChildren (allocNode h c).1 cs).1.length := by
      rw [hd2]
      simp
    have hagc : agreeOn g (allocNode h c).1 h.length
        (allocNode h c).1.length := by
      intro i hi1 hi2
      rw [hag i hi1 (lt_of_lt_of_le hi2 hl2), hd2,
        List.getElem?_append_left hi2]
    have hreadc := allocNode_read h c g hagc
    have hagcs : agreeOn g (allocChildren (allocNode h c).1 cs).1
        (allocNode h c).1.length
        (allocChildren (allocNode h c).1 cs).1.length := by
      intro i hi1 hi2
      exact hag i (le_trans hl1 hi1) hi2
    have hreadcs := allocChildren_read (allocNode h c).1 cs g hagcs
    have hfuel1 : Node.height c + 1 ≤
        max (Node.height c) (heightList cs) + 1 := by
      have hm := le_max_left (Node.height c) (heightList cs)
      omega
    have hfuel2 : heightList cs + 1 ≤
        max (Node.height c) (heightList cs) + 1 := by
      have hm := le_max_right (Node.height c) (heightList cs)
      omega
    show readChildrenWith
      (readNode g (max (Node.height c) (heightList cs) + 1))
      ((allocNode h c).2 :: (allocChildren (allocNode h c).1 cs).2) =
      some (c :: cs)
    simp only [readChildrenWith]
    rw [readNode_mono _ _ _ _ _ hfuel1 hreadc,
      readChildrenWith_mono
        (fun b t' hb => readNode_mono _ _ _ _ _ hfuel2 hb) _ cs hreadcs]

end

/-- C3: `Clone` produces a structurally identical, fully independent copy.
On a tree-shaped heap where address `a0` holds the tree `t0`, the clone's
root is a fresh object (its address lies outside the original heap); the
clone reads back exactly `t0` (same names, same children in the same order
at every depth); the original still reads `t0` in the extended heap; and
mutating any original object leaves the clone's reading unchanged, while
mutating any freshly allocated object leaves the original's reading
unchanged — no node object is shared. -/
theorem clone_no_sharing (h : Heap) (a0 : Nat) (t0 : Node) (fuel : Nat)
    (hwf : heapWF h = true) (hread : readNode h fuel a0 = some t0)
    (ha0 : a0 < h.length) :
    h.length ≤ (allocNode h t0).2 ∧
    readNode (allocNode h t0).1 (Node.height t0 + 1) (allocNode h t0).2 =
      some t0 ∧
    readNode (allocNode h t0).1 fuel a0 = some t0 ∧
    (∀ b c, b < h.length →
      readNode ((allocNode h t0).1.set b c) (Node.height t0 + 1)
        (allocNode h t0).2 = some t0) ∧
    (∀ b c, h.length ≤ b →
      readNode ((allocNode h t0).1.set b c) fuel a0 = some t0) := by
  rcases allocNode_append h t0 with ⟨d, hd⟩
  have hagl : ∀ i, i < h.length → (allocNode h t0).1[i]? = h[i]? := by
    intro i hi
    rw [hd, List.getElem?_append_left hi]
  refine ⟨allocNode_fresh h t0, ?_, ?_, ?_, ?_⟩
  · exact allocNode_read h t0 _ (fun i _ _ => rfl)
  · rw [readNode_congr fuel h (allocNode h t0).1 h.length hwf hagl a0 ha0]
    exact hread
  · intro b c hb
    apply allocNode_read h t0
    intro i hi1 hi2
    rw [List.getElem?_set_ne (show b ≠ i by omega)]
  · intro b c hb
    have hset : ∀ i, i < h.length →
        ((allocNode h t0).1.set b c)[i]? = h[i]? := by
      intro i hi
      rw [List.getElem?_set_ne (show b ≠ i by omega), hd,
        List.getElem?_append_left hi]
    rw [readNode_congr fuel h _ h.length hwf hset a0 ha0]
    exact hread

theorem clone_no_sharing_witness :
    heapWF heap0 = true ∧ readNode heap0 2 1 = some tree0 ∧
    1 < heap0.length ∧
    heap0.length ≤ (allocNode heap0 tree0).2 ∧
    readNode (allocNode heap0 tree0).1 (Node.height tree0 + 1)
      (allocNode heap0 tree0).2 = some tree0 ∧
    readNode (allocNode heap0 tree0).1 2 1 = some tree0 ∧
    readNode ((allocNode heap0 tree0).1.set 0 (.file "mutated"))
      (Node.height tree0 + 1) (allocNode heap0 tree0).2 = some tree0 ∧
    readNode ((allocNode heap0 tree0).1.set 2 (.file "mutated")) 2 1 =
      some tree0 :=
  have hmain := clone_no_sharing heap0 1 tree0 2 (by decide) (by rfl)
    (by decide)
  ⟨by decide, by rfl, by decide, hmain.1, hmain.2.1, hmain.2.2.1,
   hmain.2.2.2.1 0 (.file "mutated") (by decide),
   hmain.2.2.2.2 2 (.file "mutated") (by decide)⟩

theorem inv_init (n : Nat) : Inv (initState n) := by
  refine ⟨?_, ?_, ?_, ?_, ?_, ?_, ?_, ?_, ?_, ?_⟩
  · intro _ i
    simp [initState, inCS]
  · intro i j hi hj
    simp [initState, inCS] at hi
  · intro h
    simp [initState] at h
  · exact Nat.zero_le 1
  · intro i h
    simp [initState] at h
  · intro i h
    simp [initState] at h
  · intro i h
    simp [initState] at h
  · intro i h
    simp [initState] at h
  · intro i r h
    simp [initState] at h
  · intro _
    exact Or.inl rfl

theorem inv_step {n : Nat} {s s' : GState n} (hinv : Inv s)
    (hstep : Step s s') : Inv s' := by
  cases hstep with
  | fastDone i hpc hdone =>
    refine ⟨?_, ?_, hinv.done_sing, hinv.count_le, ?_, ?_, ?_, ?_, ?_, ?_⟩ <;> dsimp only
    · intro hl j
      rcases eq_or_ne j i with rfl | hne
      · rw [Function.update_same]
        simp [inCS]
      · rw [Function.update_noteq hne]
        exact hinv.lock_cs hl j
    · intro j k hj hk
      rcases eq_or_ne j i with rfl | hnej
      · rw [Function.update_same] at hj
        simp [inCS] at hj
      · rcases eq_or_ne k i with rfl | hnek
        · rw [Function.update_same] at hk
          simp [inCS] at hk
        · rw [Function.update_noteq hnej] at hj
          rw [Function.update_noteq hnek] at hk
          exact hinv.cs_unique j k hj hk
    · intro j hj
      rcases eq_or_ne j i with rfl | hne
      · rw [Function.update_same] at hj
        simp at hj
      · rw [Function.update_noteq hne] at hj
        exact hinv.init_pre j hj
    · intro j hj
      rcases eq_or_ne j i with rfl | hne
      · rw [Function.update_same] at hj
        simp at hj
      · rw [Function.update_noteq hne] at hj
        exact hinv.setdone_post j hj
    · intro j hj
      rcases eq_or_ne j i with rfl | hne
      · rw [Function.update_same] at hj
        simp at hj
      · rw [Function.update_noteq hne] at hj
        exact hinv.unlock_done j hj
    · intro j hj
      rcases eq_or_ne j i with rfl | hne
      · exact hdone
      · rw [Function.update_noteq hne] at hj
        exact hinv.readret_done j hj
    · intro j r hj
      rcases eq_or_ne j i with rfl | hne
      · rw [Function.update_same] at hj
        simp at hj
      · rw [Function.update_noteq hne] at hj
        exact hinv.finished_val j r hj
    · intro hnd
      rcases hinv.nodone_count hnd with hc | ⟨k, hk⟩
      · exact Or.inl hc
      · have hne : k ≠ i := fun h => by rw [h, hpc] at hk; cases hk
        exact Or.inr ⟨k, by rw [Function.update_noteq hne]; exact hk⟩
  | fastMiss i hpc hdone =>
    refine ⟨?_, ?_, hinv.done_sing, hinv.count_le, ?_, ?_, ?_, ?_, ?_, ?_⟩ <;> dsimp only
    · intro hl j
      rcases eq_or_ne j i with rfl | hne
      · rw [Function.update_same]
        simp [inCS]
      · rw [Function.update_noteq hne]
        exact hinv.lock_cs hl j
    · intro j k hj hk
      rcases eq_or_ne j i with rfl | hnej
      · rw [Function.update_same] at hj
        simp [inCS] at hj
      · rcases eq_or_ne k i with rfl | hnek
        · rw [Function.update_same] at hk
          simp [inCS] at hk
        · rw [Function.update_noteq hnej] at hj
          rw [Function.update_noteq hnek] at hk
          exact hinv.cs_unique j k hj hk
    · intro j hj
      rcases eq_or_ne j i with rfl | hne
      · rw [Function.update_same] at hj
        simp at hj
      · rw [Function.update_noteq hne] at hj
        exact hinv.init_pre j hj
    · intro j hj
      rcases eq_or_ne j i with rfl | hne
      · rw [Function.update_same] at hj
        simp at hj
      · rw [Function.update_noteq hne] at hj
        exact hinv.setdone_post j hj
    · intro j hj
      rcases eq_or_ne j i with rfl | hne
      · rw [Function.update_same] at hj
        simp at hj
      · rw [Function.update_noteq hne] at hj
        exact hinv.unlock_done j hj
    · intro j hj
      rcases eq_or_ne j i with rfl | hne
      · rw [Function.update_same] at hj
        simp at hj
      · rw [Function.update_noteq hne] at hj
        exact hinv.readret_done j hj
    · intro j r hj
      rcases eq_or_ne j i with rfl | hne
      · rw [Function.update_same] at hj
        simp at hj
      · rw [Function.update_noteq hne] at hj
        exact hinv.finished_val j r hj
    · intro hnd
      rcases hinv.nodone_count hnd with hc | ⟨k, hk⟩
      · exact Or.inl hc
      · have hne : k ≠ i := fun h => by rw [h, hpc] at hk; cases hk
        exact Or.inr ⟨k, by rw [Function.update_noteq hne]; exact hk⟩
  | acquire i hpc hlock =>
    refine ⟨?_, ?_, hinv.done_sing, hinv.count_le, ?_, ?_, ?_, ?_, ?_, ?_⟩ <;> dsimp only
    · intro hl
      simp at hl
    · intro j k hj hk
      rcases eq_or_ne j i with rfl | hnej
      · rcases eq_or_ne k j with rfl | hnek
        · rfl
        · rw [Function.update_noteq hnek] at hk
          exact absurd hk (hinv.lock_cs hlock k)
      · rw [Function.update_noteq hnej] at hj
        exact absurd hj (hinv.lock_cs hlock j)
    · intro j hj
      rcases eq_or_ne j i with rfl | hne
      · rw [Function.update_same] at hj
        simp at hj
      · rw [Function.update_noteq hne] at hj
        exact hinv.init_pre j hj
    · intro j hj
      rcases eq_or_ne j i with rfl | hne
      · rw [Function.update_same] at hj
        simp at hj
      · rw [Function.update_noteq hne] at hj
        exact hinv.setdone_post j hj
    · intro j hj
      rcases eq_or_ne j i with rfl | hne
      · rw [Function.update_same] at hj
        simp at hj
      · rw [Function.update_noteq hne] at hj
        exact hinv.unlock_done j hj
    · intro j hj
      rcases eq_or_ne j i with rfl | hne
      · rw [Function.update_same] at hj
        simp at hj
      · rw [Function.update_noteq hne] at hj
        exact hinv.readret_done j hj
    · intro j r hj
      rcases eq_or_ne j i with rfl | hne
      · rw [Function.update_same] at hj
        simp at hj
      · rw [Function.update_noteq hne] at hj
        exact hinv.finished_val j r hj
    · intro hnd
      rcases hinv.nodone_count hnd with hc | ⟨k, hk⟩
      · exact Or.inl hc
      · have hne : k ≠ i := fun h => by rw [h, hpc] at hk; cases hk
        exact Or.inr ⟨k, by rw [Function.update_noteq hne]; exact hk⟩
  | checkDone i hpc hdone =>
    refine ⟨?_, ?_, hinv.done_sing, hinv.count_le, ?_, ?_, ?_, ?_, ?_, ?_⟩ <;> dsimp only
    · intro hl
      exact absurd (show inCS (s.threads i) by rw [hpc]; trivial)
        (hinv.lock_cs hl i)
    · intro j k hj hk
      have hj' : inCS (s.threads j) := by
        rcases eq_or_ne j i with rfl | hne
        · rw [hpc]
          trivial
        · rwa [Function.update_noteq hne] at hj
      have hk' : inCS (s.threads k) := by
        rcases eq_or_ne k i with rfl | hne
        · rw [hpc]
          trivial
        · rwa [Function.update_noteq hne] at hk
      exact hinv.cs_unique j k hj' hk'
    · intro j hj
      rcases eq_or_ne j i with rfl | hne
      · rw [Function.update_same] at hj
        simp at hj
      · rw [Function.update_noteq hne] at hj
        exact hinv.init_pre j hj
    · intro j hj
      rcases eq_or_ne j i with rfl | hne
      · rw [Function.update_same] at hj
        simp at hj
      · rw [Function.update_noteq hne] at hj
        exact hinv.setdone_post j hj
    · intro j hj
      rcases eq_or_ne j i with rfl | hne
      · exact hdone
      · rw [Function.update_noteq hne] at hj
        exact hinv.unlock_done j hj
    · intro j hj
      rcases eq_or_ne j i with rfl | hne
      · rw [Function.update_same] at hj
        simp at hj
      · rw [Function.update_noteq hne] at hj
        exact hinv.readret_done j hj
    · intro j r hj
      rcases eq_or_ne j i with rfl | hne
      · rw [Function.update_same] at hj
        simp at hj
      · rw [Function.update_noteq hne] at hj
        exact hinv.finished_val j r hj
    · intro hnd
      rw [hdone] at hnd
      exact absurd hnd (by decide)
  | checkNotDone i hpc hdone =>
    refine ⟨?_, ?_, hinv.done_sing, hinv.count_le, ?_, ?_, ?_, ?_, ?_, ?_⟩ <;> dsimp only
    · intro hl
      exact absurd (show inCS (s.threads i) by rw [hpc]; trivial)
        (hinv.lock_cs hl i)
    · intro j k hj hk
      have hj' : inCS (s.threads j) := by
        rcases eq_or_ne j i with rfl | hne
        · rw [hpc]
          trivial
        · rwa [Function.update_noteq hne] at hj
      have hk' : inCS (s.threads k) := by
        rcases eq_or_ne k i with rfl | hne
        · rw [hpc]
          trivial
        · rwa [Function.update_noteq hne] at hk
      exact hinv.cs_unique j k hj' hk'
    · intro j hj
      rcases eq_or_ne j i with rfl | hne
      · refine ⟨hdone, ?_⟩
        rcases hinv.nodone_count hdone with hc | ⟨k, hk⟩
        · exact hc
        · have hki := hinv.cs_unique k j (by rw [hk]; trivial)
            (by rw [hpc]; trivial)
          rw [hki, hpc] at hk
          cases hk
      · rw [Function.update_noteq hne] at hj
        exact hinv.init_pre j hj
    · intro j hj
      rcases eq_or_ne j i with rfl | hne
      · rw [Function.update_same] at hj
        simp at hj
      · rw [Function.update_noteq hne] at hj
        exact hinv.setdone_post j hj
    · intro j hj
      rcases eq_or_ne j i with rfl | hne
      · rw [Function.update_same] at hj
        simp at hj
      · rw [Function.update_noteq hne] at hj
        exact hinv.unlock_done j hj
    · intro j hj
      rcases eq_or_ne j i with rfl | hne
      · rw [Function.update_same] at hj
        simp at hj
      · rw [Function.update_noteq hne] at hj
        exact hinv.readret_done j hj
    · intro j r hj
      rcases eq_or_ne j i with rfl | hne
      · rw [Function.update_same] at hj
        simp at hj
      · rw [Function.update_noteq hne] at hj
        exact hinv.finished_val j r hj
    · intro hnd
      rcases hinv.nodone_count hnd with hc | ⟨k, hk⟩
      · exact Or.inl hc
      · have hne : k ≠ i := fun h => by rw [h, hpc] at hk; cases hk
        exact Or.inr ⟨k, by rw [Function.update_noteq hne]; exact hk⟩
  | doInit i hpc =>
    rcases hinv.init_pre i hpc with ⟨hdf, hc0⟩
    refine ⟨?_, ?_, ?_, ?_, ?_, ?_, ?_, ?_, ?_, ?_⟩ <;> dsimp only
    · intro hl
      exact absurd (show inCS (s.threads i) by rw [hpc]; trivial)
        (hinv.lock_cs hl i)
    · intro j k hj hk
      have hj' : inCS (s.threads j) := by
        rcases eq_or_ne j i with rfl | hne
        · rw [hpc]
          trivial
        · rwa [Function.update_noteq hne] at hj
      have hk' : inCS (s.threads k) := by
        rcases eq_or_ne k i with rfl | hne
        · rw [hpc]
          trivial
        · rwa [Function.update_noteq hne] at hk
      exact hinv.cs_unique j k hj' hk'
    · intro h
      rw [hdf] at h
      exact absurd h (by decide)
    · show s.initCount + 1 ≤ 1
      omega
    · intro j hj
      rcases eq_or_ne j i with rfl | hne
      · rw [Function.update_same] at hj
        simp at hj
      · rw [Function.update_noteq hne] at hj
        have := hinv.cs_unique j i (by rw [hj]; trivial) (by rw [hpc]; trivial)
        exact absurd this hne
    · intro j hj
      rcases eq_or_ne j i with rfl | hne
      · exact ⟨rfl, by omega⟩
      · rw [Function.update_noteq hne] at hj
        have := hinv.cs_unique j i (by rw [hj]; trivial) (by rw [hpc]; trivial)
        exact absurd this hne
    · intro j hj
      rcases eq_or_ne j i with rfl | hne
      · rw [Function.update_same] at hj
        simp at hj
      · rw [Function.update_noteq hne] at hj
        exact hinv.unlock_done j hj
    · intro j hj
      rcases eq_or_ne j i with rfl | hne
      · rw [Function.update_same] at hj
        simp at hj
      · rw [Function.update_noteq hne] at hj
        exact hinv.readret_done j hj
    · intro j r hj
      rcases eq_or_ne j i with rfl | hne
      · rw [Function.update_same] at hj
        simp at hj
      · rw [Function.update_noteq hne] at hj
        exact hinv.finished_val j r hj
    · intro _
      exact Or.inr ⟨i, Function.update_same i _ _⟩
  | doSetDone i hpc =>
    rcases hinv.setdone_post i hpc with ⟨hsg, hc1⟩
    refine ⟨?_, ?_, ?_, hinv.count_le, ?_, ?_, ?_, ?_, ?_, ?_⟩ <;> dsimp only
    · intro hl
      exact absurd (show inCS (s.threads i) by rw [hpc]; trivial)
        (hinv.lock_cs hl i)
    · intro j k hj hk
      have hj' : inCS (s.threads j) := by
        rcases eq_or_ne j i with rfl | hne
        · rw [hpc]
          trivial
        · rwa [Function.update_noteq hne] at hj
      have hk' : inCS (s.threads k) := by
        rcases eq_or_ne k i with rfl | hne
        · rw [hpc]
          trivial
        · rwa [Function.update_noteq hne] at hk
      exact hinv.cs_unique j k hj' hk'
    · intro _
      exact ⟨hsg, hc1⟩
    · intro j hj
      rcases eq_or_ne j i with rfl | hne
      · rw [Function.update_same] at hj
        simp at hj
      · rw [Function.update_noteq hne] at hj
        have := hinv.cs_unique j i (by rw [hj]; trivial) (by rw [hpc]; trivial)
        exact absurd this hne
    · intro j hj
      rcases eq_or_ne j i with rfl | hne
      · rw [Function.update_same] at hj
        simp at hj
      · rw [Function.update_noteq hne] at hj
        exact hinv.setdone_post j hj
    · intro j _
      rfl
    · intro j _
      rfl
    · intro j r hj
      rcases eq_or_ne j i with rfl | hne
      · rw [Function.update_same] at hj
        simp at hj
      · rw [Function.update_noteq hne] at hj
        exact ⟨(hinv.finished_val j r hj).1, rfl⟩
    · intro hnd
      exact absurd hnd (by decide)
  | release i hpc =>
    refine ⟨?_, ?_, hinv.done_sing, hinv.count_le, ?_, ?_, ?_, ?_, ?_, ?_⟩ <;> dsimp only
    · intro _ j
      rcases eq_or_ne j i with rfl | hne
      · rw [Function.update_same]
        simp [inCS]
      · rw [Function.update_noteq hne]
        intro hcs
        exact hne (hinv.cs_unique j i hcs (by rw [hpc]; trivial))
    · intro j k hj hk
      rcases eq_or_ne j i with rfl | hnej
      · rw [Function.update_same] at hj
        simp [inCS] at hj
      · rcases eq_or_ne k i with rfl | hnek
        · rw [Function.update_same] at hk
          simp [inCS] at hk
        · rw [Function.update_noteq hnej] at hj
          rw [Function.update_noteq hnek] at hk
          exact hinv.cs_unique j k hj hk
    · intro j hj
      rcases eq_or_ne j i with rfl | hne
      · rw [Function.update_same] at hj
        simp at hj
      · rw [Function.update_noteq hne] at hj
        exact hinv.init_pre j hj
    · intro j hj
      rcases eq_or_ne j i with rfl | hne
      · rw [Function.update_same] at hj
        simp at hj
      · rw [Function.update_noteq hne] at hj
        exact hinv.setdone_post j hj
    · intro j hj
      rcases eq_or_ne j i with rfl | hne
      · rw [Function.update_same] at hj
        simp at hj
      · rw [Function.update_noteq hne] at hj
        exact hinv.unlock_done j hj
    · intro j hj
      rcases eq_or_ne j i with rfl | hne
      · exact hinv.unlock_done j hpc
      · rw [Function.update_noteq hne] at hj
        exact hinv.readret_done j hj
    · intro j r hj
      rcases eq_or_ne j i with rfl | hne
      · rw [Function.update_same] at hj
        simp at hj
      · rw [Function.update_noteq hne] at hj
        exact hinv.finished_val j r hj
    · intro hnd
      rcases hinv.nodone_count hnd with hc | ⟨k, hk⟩
      · exact Or.inl hc
      · have hne : k ≠ i := fun h => by rw [h, hpc] at hk; cases hk
        exact Or.inr ⟨k, by rw [Function.update_noteq hne]; exact hk⟩
  | ret i hpc =>
    have hdone := hinv.readret_done i hpc
    rcases hinv.done_sing hdone with ⟨hsg, hc1⟩
    refine ⟨?_, ?_, hinv.done_sing, hinv.count_le, ?_, ?_, ?_, ?_, ?_, ?_⟩ <;> dsimp only
    · intro hl j
      rcases eq_or_ne j i with rfl | hne
      · rw [Function.update_same]
        simp [inCS]
      · rw [Function.update_noteq hne]
        exact hinv.lock_cs hl j
    · intro j k hj hk
      rcases eq_or_ne j i with rfl | hnej
      · rw [Function.update_same] at hj
        simp [inCS] at hj
      · rcases eq_or_ne k i with rfl | hnek
        · rw [Function.update_same] at hk
          simp [inCS] at hk
        · rw [Function.update_noteq hnej] at hj
          rw [Function.update_noteq hnek] at hk
          exact hinv.cs_unique j k hj hk
    · intro j hj
      rcases eq_or_ne j i with rfl | hne
      · rw [Function.update_same] at hj
        simp at hj
      · rw [Function.update_noteq hne] at hj
        exact hinv.init_pre j hj
    · intro j hj
      rcases eq_or_ne j i with rfl | hne
      · rw [Function.update_same] at hj
        simp at hj
      · rw [Function.update_noteq hne] at hj
        exact hinv.setdone_post j hj
    · intro j hj
      rcases eq_or_ne j i with rfl | hne
      · rw [Function.update_same] at hj
        simp at hj
      · rw [Function.update_noteq hne] at hj
        exact hinv.unlock_done j hj
    · intro j hj
      rcases eq_or_ne j i with rfl | hne
      · exact hdone
      · rw [Function.update_noteq hne] at hj
        exact hinv.readret_done j hj
    · intro j r hj
      rcases eq_or_ne j i with rfl | hne
      · rw [Function.update_same] at hj
        cases hj
        exact ⟨hsg, hdone⟩
      · rw [Function.update_noteq hne] at hj
        exact hinv.finished_val j r hj
    · intro hnd
      rcases hinv.nodone_count hnd with hc | ⟨k, hk⟩
      · exact Or.inl hc
      · have hne : k ≠ i := fun h => by rw [h, hpc] at hk; cases hk
        exact Or.inr ⟨k, by rw [Function.update_noteq hne]; exact hk⟩

theorem reachable_of_eq {n : Nat} {s s' : GState n} (h : Reachable n s)
    (hd : s.done = s'.done) (hl : s.lockHeld = s'.lockHeld)
    (hs : s.singleton = s'.singleton) (hc : s.initCount = s'.initCount)
    (ht : ∀ i, s.threads i = s'.threads i) : Reachable n s' := by
  have heq : s = s' := by
    cases s
    cases s'
    simp only [GState.mk.injEq]
    exact ⟨hd, hl, hs, hc, funext ht⟩
  rwa [heq] at h

/-- C2: in every reachable state of the `getSingleton` interleaving model,
the initializer body has run at most once; every caller that has returned
got the fully-initialized instance (never nil) — the same one for all —
and its return implies the body ran exactly once; so when `n ≥ 1` callers
have all returned, the body ran exactly once. -/
theorem getSingleton_once (n : Nat) (s : GState n) (h : Reachable n s) :
    s.initCount ≤ 1 ∧
    (∀ i r, s.threads i = .finished r → r = some 0 ∧ s.initCount = 1) ∧
    (0 < n → (∀ i, ∃ r, s.threads i = .finished r) → s.initCount = 1) := by
  have hinv : Inv s := by
    induction h with
    | init => exact inv_init n
    | step hr hst ih => exact inv_step ih hst
  refine ⟨hinv.count_le, ?_, ?_⟩
  · intro i r hir
    rcases hinv.finished_val i r hir with ⟨h0, hdone⟩
    exact ⟨h0, (hinv.done_sing hdone).2⟩
  · intro hn hall
    rcases hall ⟨0, hn⟩ with ⟨r, hr0⟩
    rcases hinv.finished_val _ _ hr0 with ⟨_, hdone⟩
    exact (hinv.done_sing hdone).2

theorem getSingleton_once_witness :
    (0 : Nat) < 2 ∧ sFin.initCount = 1 ∧
    sFin.threads 0 = PC.finished (some 0) ∧
    sFin.threads 1 = PC.finished (some 0) := by
  have h0 : Reachable 2 (initState 2) := Reachable.init
  have h1 := Reachable.step h0 (Step.fastMiss (initState 2) 0 rfl rfl)
  have h2 := Reachable.step h1 (Step.acquire _ 0 (by decide) rfl)
  have h3 := Reachable.step h2 (Step.checkNotDone _ 0 (by decide) rfl)
  have h4 := Reachable.step h3 (Step.doInit _ 0 (by decide))
  have h5 := Reachable.step h4 (Step.doSetDone _ 0 (by decide))
  have h6 := Reachable.step h5 (Step.release _ 0 (by decide))
  have h7 := Reachable.step h6 (Step.ret _ 0 (by decide))
  have h8 := Reachable.step h7 (Step.fastDone _ 1 (by decide) rfl)
  have h9 := Reachable.step h8 (Step.ret _ 1 (by decide))
  have hre : Reachable 2 sFin :=
    reachable_of_eq h9 rfl rfl rfl rfl (by intro i; fin_cases i <;> rfl)
  have hmain := getSingleton_once 2 sFin hre
  exact ⟨by decide, hmain.2.2 (by decide)
    (fun i => ⟨some 0, by fin_cases i <;> rfl⟩), rfl, rfl⟩

end CP
